import Mathlib

/-!
Verification development for the mapperfs namespace-projection engine
(src/mapperfs.py, src/generic.py).  Paths are modelled as lists of
characters (Python `str`), and the path manipulation helpers mirror
CPython's `posixpath` implementations of `os.path.split`,
`os.path.join`, `os.path.splitext` and `os.path.commonprefix`.
-/

namespace MFS

/-- A Python string: list of characters. -/
abbrev Str := List Char

/-- Python `s.rstrip('/')`: remove all trailing slashes. -/
def rstripSlash (p : Str) : Str :=
  (p.reverse.dropWhile (fun c => c = '/')).reverse

/-- A path consisting only of slashes (this includes the empty string).
CPython's `posixpath.split` keeps such heads intact (`head != sep*len(head)`
fails exactly on them). -/
def isRoot (p : Str) : Prop := ∀ c ∈ p, c = '/'

instance (p : Str) : Decidable (isRoot p) := by unfold isRoot; infer_instance

/-- The `tail` of CPython `posixpath.split(p)`: the maximal suffix of `p`
containing no slash (`p[i:]` for `i = p.rfind('/') + 1`). -/
def psplitTail (p : Str) : Str := (p.reverse.takeWhile (fun c => c ≠ '/')).reverse

/-- The raw `head` of CPython `posixpath.split(p)`: everything up to and
including the last slash (`p[:i]`). -/
def psplitHeadRaw (p : Str) : Str := p.take (p.length - (psplitTail p).length)

/-- CPython `posixpath.split(p)`: `(head, tail)`, with trailing slashes
stripped from `head` unless `head` consists only of slashes. -/
def psplit (p : Str) : Str × Str :=
  if psplitHeadRaw p ≠ [] ∧ ¬ isRoot (psplitHeadRaw p) then
    (rstripSlash (psplitHeadRaw p), psplitTail p)
  else (psplitHeadRaw p, psplitTail p)

/-- CPython `posixpath.join(a, b)` (two-argument case). -/
def pjoin (a b : Str) : Str :=
  if b.head? = some '/' then b
  else if a = [] ∨ a.getLast? = some '/' then a ++ b
  else a ++ '/' :: b

/-- CPython `posixpath.splitext(p)` (via `genericpath._splitext` with
`sep = '/'`, no altsep, `extsep = '.'`): split off the extension at the last
dot of the basename, unless the basename's characters before that dot are all
dots (leading-dot files like `.bashrc` have no extension). -/
def psplitext (p : Str) : Str × Str :=
  let base := (p.reverse.takeWhile (fun c => c ≠ '/')).reverse
  let extRev := base.reverse.takeWhile (fun c => c ≠ '.')
  if extRev.length = base.length then (p, [])
  else
    let pre := base.take (base.length - extRev.length - 1)
    if pre = [] ∨ pre.all (fun c => c = '.') then (p, [])
    else (p.take (p.length - extRev.length - 1), '.' :: extRev.reverse)

theorem length_dropWhile_le {α : Type} (q : α → Bool) (l : List α) :
    (l.dropWhile q).length ≤ l.length := by
  induction l with
  | nil => simp [List.dropWhile]
  | cons a l ih =>
    by_cases h : q a
    · rw [List.dropWhile_cons_of_pos h]; simp; omega
    · rw [List.dropWhile_cons_of_neg h]

theorem length_takeWhile_le {α : Type} (q : α → Bool) (l : List α) :
    (l.takeWhile q).length ≤ l.length := by
  induction l with
  | nil => simp [List.takeWhile]
  | cons a l ih =>
    by_cases h : q a
    · rw [List.takeWhile_cons_of_pos h]; simpa using ih
    · rw [List.takeWhile_cons_of_neg h]; simp

theorem rstripSlash_length_le (p : Str) : (rstripSlash p).length ≤ p.length := by
  unfold rstripSlash
  simpa using length_dropWhile_le (fun c => decide (c = '/')) p.reverse

theorem psplitTail_length_le (p : Str) : (psplitTail p).length ≤ p.length := by
  unfold psplitTail
  simpa using length_takeWhile_le (fun c => decide (c ≠ '/')) p.reverse

theorem psplitHeadRaw_length (p : Str) :
    (psplitHeadRaw p).length = p.length - (psplitTail p).length := by
  unfold psplitHeadRaw
  rw [List.length_take]
  exact Nat.min_eq_left (Nat.sub_le _ _)

theorem psplitTail_of_isRoot (p : Str) (h : isRoot p) : psplitTail p = [] := by
  unfold psplitTail
  cases hrev : p.reverse with
  | nil => simp
  | cons c cs =>
    have hc : c = '/' := h c (by rw [← List.mem_reverse, hrev]; exact List.mem_cons_self c cs)
    rw [List.takeWhile_cons_of_neg (by simp [hc])]
    simp

theorem psplitHeadRaw_of_tail_nil (p : Str) (h : psplitTail p = []) :
    psplitHeadRaw p = p := by
  unfold psplitHeadRaw
  rw [h]
  simp

theorem psplit_of_isRoot (p : Str) (h : isRoot p) : psplit p = (p, []) := by
  have ht := psplitTail_of_isRoot p h
  have hh := psplitHeadRaw_of_tail_nil p ht
  unfold psplit
  rw [if_neg]
  · rw [hh, ht]
  · rw [hh]
    intro hcon
    exact hcon.2 h

/-- If the tail of `posixpath.split` is empty and `p` is nonempty, then `p`
ends with a slash (its reversal starts with `'/'`). -/
theorem last_slash_of_tail_nil (p : Str) (hp : p ≠ []) (h : psplitTail p = []) :
    ∃ cs, p.reverse = '/' :: cs := by
  have hrevne : p.reverse ≠ [] := by simpa using hp
  obtain ⟨c, cs, hrev⟩ := List.exists_cons_of_ne_nil hrevne
  refine ⟨cs, ?_⟩
  rw [hrev]
  by_contra hne
  have hcne : c ≠ '/' := by
    intro he; apply hne; rw [he]
  have : psplitTail p ≠ [] := by
    unfold psplitTail
    rw [hrev, List.takeWhile_cons_of_pos (by simp [hcne])]
    simp
  exact this h

theorem psplit_length_lt (p : Str) (h : ¬ isRoot p) :
    (psplit p).1.length < p.length := by
  have hpne : p ≠ [] := by
    intro he; apply h; subst he; intro c hc; cases hc
  have hfst : (psplit p).1 = rstripSlash (psplitHeadRaw p) ∨
      (psplit p).1 = psplitHeadRaw p := by
    unfold psplit
    by_cases hc : psplitHeadRaw p ≠ [] ∧ ¬ isRoot (psplitHeadRaw p)
    · rw [if_pos hc]; exact Or.inl rfl
    · rw [if_neg hc]; exact Or.inr rfl
  by_cases ht : psplitTail p = []
  · -- p ends in '/': headRaw = p and the stripping branch applies
    have hh := psplitHeadRaw_of_tail_nil p ht
    have hcond : psplitHeadRaw p ≠ [] ∧ ¬ isRoot (psplitHeadRaw p) := by
      rw [hh]; exact ⟨hpne, h⟩
    have hfst' : (psplit p).1 = rstripSlash p := by
      unfold psplit
      rw [if_pos hcond, hh]
    obtain ⟨cs, hrev⟩ := last_slash_of_tail_nil p hpne ht
    have hlen : (rstripSlash p).length ≤ cs.length := by
      unfold rstripSlash
      rw [hrev, List.dropWhile_cons_of_pos (by simp)]
      simpa using length_dropWhile_le (fun c => decide (c = '/')) cs
    have hcs : cs.length + 1 = p.length := by
      have := congrArg List.length hrev
      simp at this
      omega
    rw [hfst']
    omega
  · -- tail nonempty: headRaw is strictly shorter than p
    have htpos : 0 < (psplitTail p).length := List.length_pos.mpr ht
    have hle := psplitTail_length_le p
    have hlt : (psplitHeadRaw p).length < p.length := by
      rw [psplitHeadRaw_length]
      omega
    rcases hfst with hf | hf <;> rw [hf]
    · exact lt_of_le_of_lt (rstripSlash_length_le _) hlt
    · exact hlt

theorem psplit_shrink (p : Str) :
    (isRoot p ∧ psplit p = (p, [])) ∨ (psplit p).1.length < p.length := by
  by_cases h : isRoot p
  · exact Or.inl ⟨h, psplit_of_isRoot p h⟩
  · exact Or.inr (psplit_length_lt p h)

/-- If the basename produced by `posixpath.split` is nonempty, then the whole
path was not root-like. -/
theorem not_isRoot_of_psplit_snd_ne_nil (p : Str) (h : (psplit p).2 ≠ []) :
    ¬ isRoot p := by
  intro hr
  rw [psplit_of_isRoot p hr] at h
  exact h rfl

/-! ### Directory synthesis (`MapFuse._synthesize_dirs` / `StaticList.synthesize_dirs`) -/

/-- A member of a synthesized `Directory` set.  The source's `Directory` is a
`set` subclass; the elements the program ever inserts are basename strings
(`dirs[d].add(base)`), but `Directory.num_subdirs` filters the members by
`isinstance(e, Directory)`, so the member type distinguishes plain strings
from nested `Directory` objects. -/
inductive DirMember where
  | name (s : Str)
  | sub (children : List Str)
deriving DecidableEq

/-- `Directory.num_subdirs` (src/mapperfs.py lines 39-41):
`sum(1 for e in self if isinstance(e, Directory))`. -/
def num_subdirs (children : List DirMember) : Nat :=
  children.countP (fun e => match e with | .sub _ => true | .name _ => false)

/-- The `dirs` defaultdict: a path is a key exactly when some basename was
added under it (every add makes the set nonempty, and nothing is removed), so
the mapping is modelled as a total function into member lists, with key
presence `dirs d ≠ []`. -/
abbrev Dirs := Str → List DirMember

/-- `dirs[d].add(base)`. -/
def dadd (f : Dirs) (d b : Str) : Dirs :=
  fun x => if x = d then (if DirMember.name b ∈ f d then f d else DirMember.name b :: f d)
  else f x

/-- One upward walk of `_synthesize_dirs` (the `while` loop body for a single
entry), with explicit fuel:
`while d and base and not (d in entries or (d in dirs and base in dirs[d])):
dirs[d].add(base); d, base = os.path.split(d)`.  The fuel supplied by
`synthesize_dirs` is shown sufficient by `walkF` never being called with
exhausted fuel while the loop guard holds (`walkF_fuel_irrelevant`). -/
def walkF (es : List Str) : Nat → Dirs → Str → Str → Dirs
  | 0, f, _, _ => f
  | n+1, f, d, b =>
    if d ≠ [] ∧ b ≠ [] ∧ ¬ (d ∈ es ∨ (f d ≠ [] ∧ DirMember.name b ∈ f d)) then
      walkF es n (dadd f d b) (psplit d).1 (psplit d).2
    else f

/-- The loop measure: each iteration strictly decreases
`d.length + (1 if base else 0)`. -/
def walkMeasure (d b : Str) : Nat := d.length + (if b = [] then 0 else 1)

/-- Processing of a single entry inside `_synthesize_dirs`:
`d, base = os.path.split(e)` followed by the upward walk. -/
def synthStep (es : List Str) (f : Dirs) (e : Str) : Dirs :=
  walkF es ((psplit e).1.length + 1) f (psplit e).1 (psplit e).2

/-- `MapFuse._synthesize_dirs(entries)` (src/mapperfs.py lines 83-94,
src/generic.py lines 39-50): for each entry key, walk upward from its parent
inserting basenames, stopping at entries, at already-present pairs, or at the
top.  `es` is the list of keys of the `entries` dict. -/
def synthesize_dirs (es : List Str) : Dirs :=
  es.foldl (synthStep es) (fun _ => [])

/-- The proper ancestor directories of a path, from closest to farthest,
excluding the root: the iterated heads of `posixpath.split`, stopping when the
basename becomes empty or the head is root-like. -/
def ancestorsF : Nat → Str → List Str
  | 0, _ => []
  | n+1, p =>
    if (psplit p).2 = [] ∨ isRoot (psplit p).1 then []
    else (psplit p).1 :: ancestorsF n (psplit p).1

/-- Proper ancestors of `p`, with adequate fuel. -/
def ancestors (p : Str) : List Str := ancestorsF p.length p

theorem ancestorsF_nil (n : Nat) : ancestorsF n [] = [] := by
  have hroot : isRoot ([] : Str) := by intro c hc; cases hc
  cases n with
  | zero => rfl
  | succ k =>
    rw [ancestorsF, if_pos]
    rw [psplit_of_isRoot _ hroot]
    exact Or.inl rfl

theorem ancestorsF_congr : ∀ (m n : Nat) (p : Str), p.length ≤ m → p.length ≤ n →
    ancestorsF m p = ancestorsF n p := by
  intro m
  induction m with
  | zero =>
    intro n p hm _
    have hp : p = [] := List.length_eq_zero.mp (Nat.le_zero.mp hm)
    subst hp
    rw [ancestorsF_nil, ancestorsF_nil]
  | succ m ih =>
    intro n p hm hn
    cases n with
    | zero =>
      have hp : p = [] := List.length_eq_zero.mp (Nat.le_zero.mp hn)
      subst hp
      rw [ancestorsF_nil, ancestorsF_nil]
    | succ k =>
      rw [ancestorsF, ancestorsF]
      by_cases hc : (psplit p).2 = [] ∨ isRoot (psplit p).1
      · rw [if_pos hc, if_pos hc]
      · rw [if_neg hc, if_neg hc]
        push_neg at hc
        have hnr : ¬ isRoot p := not_isRoot_of_psplit_snd_ne_nil p hc.1
        have hlt := psplit_length_lt p hnr
        congr 1
        exact ih k (psplit p).1 (by omega) (by omega)

/-- Unfolding equation for `ancestors` in terms of `psplit`. -/
theorem ancestors_eq (p : Str) :
    ancestors p = if (psplit p).2 = [] ∨ isRoot (psplit p).1 then []
      else (psplit p).1 :: ancestors (psplit p).1 := by
  unfold ancestors
  by_cases hc : (psplit p).2 = [] ∨ isRoot (psplit p).1
  · rw [if_pos hc]
    cases hl : p.length with
    | zero =>
      rfl
    | succ k =>
      rw [ancestorsF, if_pos hc]
  · rw [if_neg hc]
    push_neg at hc
    have hnr : ¬ isRoot p := not_isRoot_of_psplit_snd_ne_nil p hc.1
    have hlt := psplit_length_lt p hnr
    have hppos : 0 < p.length := by omega
    obtain ⟨k, hk⟩ : ∃ k, p.length = k + 1 := ⟨p.length - 1, by omega⟩
    rw [hk, ancestorsF, if_neg (by push_neg; exact hc)]
    congr 1
    exact ancestorsF_congr k (psplit p).1.length (psplit p).1 (by omega) (by omega)

/-! ### Completeness of directory synthesis (claim C2) -/

/-- One-step parent coverage for a key `x` of the dirs mapping: its
`posixpath.split` either terminates the ancestor chain (empty base or empty
head), or the head is itself an entry, or the head is also a key. -/
def Cov (es : List Str) (f : Dirs) (x : Str) : Prop :=
  (psplit x).2 = [] ∨ (psplit x).1 = [] ∨ (psplit x).1 ∈ es ∨ f (psplit x).1 ≠ []

/-- Every key of the dirs mapping has one-step parent coverage. -/
def Inv (es : List Str) (f : Dirs) : Prop := ∀ x, f x ≠ [] → Cov es f x

theorem dadd_self_ne_nil (f : Dirs) (d b : Str) : dadd f d b d ≠ [] := by
  unfold dadd
  rw [if_pos rfl]
  by_cases hm : DirMember.name b ∈ f d
  · rw [if_pos hm]
    intro he
    rw [he] at hm
    cases hm
  · rw [if_neg hm]
    simp

theorem dadd_preserve (f : Dirs) (d b x : Str) (h : f x ≠ []) : dadd f d b x ≠ [] := by
  unfold dadd
  by_cases hx : x = d
  · rw [if_pos hx]
    split
    · rw [hx] at h; exact h
    · simp
  · rw [if_neg hx]; exact h

theorem Cov_mono (es : List Str) (f g : Dirs) (x : Str)
    (hmono : ∀ y, f y ≠ [] → g y ≠ []) (h : Cov es f x) : Cov es g x := by
  rcases h with h | h | h | h
  · exact Or.inl h
  · exact Or.inr (Or.inl h)
  · exact Or.inr (Or.inr (Or.inl h))
  · exact Or.inr (Or.inr (Or.inr (hmono _ h)))

theorem walkF_preserve (es : List Str) :
    ∀ (n : Nat) (f : Dirs) (d b x : Str), f x ≠ [] → walkF es n f d b x ≠ [] := by
  intro n
  induction n with
  | zero => intro f d b x h; exact h
  | succ m ih =>
    intro f d b x h
    rw [walkF]
    split
    · exact ih _ _ _ _ (dadd_preserve f d b x h)
    · exact h

/-- After `walkF` runs with the guard initially satisfiable, the starting
directory `d` is an entry or has become a key. -/
theorem walkF_head (es : List Str) (n : Nat) (f : Dirs) (d b : Str)
    (hn : 1 ≤ n) (hd : d ≠ []) (hb : b ≠ []) :
    d ∈ es ∨ walkF es n f d b d ≠ [] := by
  obtain ⟨m, hm⟩ : ∃ m, n = m + 1 := ⟨n - 1, by omega⟩
  subst hm
  rw [walkF]
  by_cases hg : d ≠ [] ∧ b ≠ [] ∧ ¬ (d ∈ es ∨ (f d ≠ [] ∧ DirMember.name b ∈ f d))
  · rw [if_pos hg]
    exact Or.inr (walkF_preserve es m _ _ _ d (dadd_self_ne_nil f d b))
  · rw [if_neg hg]
    push_neg at hg
    rcases hg hd hb with h | h
    · exact Or.inl h
    · exact Or.inr h.1

/-- The walk preserves the one-step coverage invariant; the single
just-inserted pair whose parent step is the walk's current position is
allowed to be deferred, and gets covered by the continuation. -/
theorem walk_inv (es : List Str) :
    ∀ (n : Nat) (f : Dirs) (d b : Str), walkMeasure d b ≤ n →
    (∀ x, f x ≠ [] → (Cov es f x ∨ psplit x = (d, b))) →
    ∀ x, walkF es n f d b x ≠ [] → Cov es (walkF es n f d b) x := by
  intro n
  induction n with
  | zero =>
    intro f d b hm hyp x hx
    have hd : d = [] := by
      unfold walkMeasure at hm
      have := List.length_eq_zero.mp (show d.length = 0 by omega)
      exact this
    have hb : b = [] := by
      unfold walkMeasure at hm
      by_contra hbne
      rw [if_neg hbne] at hm
      omega
    rcases hyp x hx with h | h
    · exact h
    · subst hd hb
      unfold Cov
      rw [h]
      exact Or.inl rfl
  | succ m ih =>
    intro f d b hm hyp x hx
    rw [walkF] at hx ⊢
    by_cases hg : d ≠ [] ∧ b ≠ [] ∧ ¬ (d ∈ es ∨ (f d ≠ [] ∧ DirMember.name b ∈ f d))
    · rw [if_pos hg] at hx ⊢
      have hmeas : walkMeasure (psplit d).1 (psplit d).2 ≤ m := by
        have hb : b ≠ [] := hg.2.1
        have hdm : d.length + 1 ≤ m + 1 := by
          unfold walkMeasure at hm
          rw [if_neg hb] at hm
          exact hm
        rcases psplit_shrink d with ⟨_, heq⟩ | hlt
        · rw [heq]
          unfold walkMeasure
          simp
          omega
        · unfold walkMeasure
          split <;> omega
      apply ih (dadd f d b) (psplit d).1 (psplit d).2 hmeas _ x hx
      intro y hy
      by_cases hyd : y = d
      · subst hyd
        exact Or.inr rfl
      · have hfy : f y ≠ [] := by
          unfold dadd at hy
          rw [if_neg hyd] at hy
          exact hy
        rcases hyp y hfy with h | h
        · exact Or.inl (Cov_mono es f (dadd f d b) y (fun z hz => dadd_preserve f d b z hz) h)
        · -- the previously deferred pair: its parent is `d`, which is now a key
          left
          unfold Cov
          rw [h]
          exact Or.inr (Or.inr (Or.inr (dadd_self_ne_nil f d b)))
    · rw [if_neg hg] at hx ⊢
      rcases hyp x hx with h | h
      · exact h
      · -- deferred pair with the guard now false: the guard's negation is
        -- exactly one-step coverage for it
        unfold Cov
        rw [h]
        push_neg at hg
        by_cases hd : d = []
        · exact Or.inr (Or.inl hd)
        · by_cases hb : b = []
          · exact Or.inl hb
          · rcases hg hd hb with h2 | h2
            · exact Or.inr (Or.inr (Or.inl h2))
            · exact Or.inr (Or.inr (Or.inr h2.1))

theorem foldl_preserve (es : List Str) :
    ∀ (l : List Str) (f : Dirs) (x : Str), f x ≠ [] →
    (l.foldl (synthStep es) f) x ≠ [] := by
  intro l
  induction l with
  | nil => intro f x h; exact h
  | cons e t ih =>
    intro f x h
    rw [List.foldl_cons]
    exact ih _ x (walkF_preserve es _ _ _ _ x h)

theorem foldl_inv (es : List Str) :
    ∀ (l : List Str) (f : Dirs), Inv es f → Inv es (l.foldl (synthStep es) f) := by
  intro l
  induction l with
  | nil => intro f h; exact h
  | cons e t ih =>
    intro f h
    rw [List.foldl_cons]
    apply ih
    intro x hx
    apply walk_inv es ((psplit e).1.length + 1) f (psplit e).1 (psplit e).2 _ _ x hx
    · unfold walkMeasure
      split <;> omega
    · intro y hy
      exact Or.inl (h y hy)

theorem synthesize_dirs_inv (es : List Str) : Inv es (synthesize_dirs es) := by
  unfold synthesize_dirs
  apply foldl_inv
  intro x hx
  exact absurd rfl hx

/-- Each entry's immediate parent becomes an entry or a key of the final
dirs mapping (provided the split produces a nonempty head and base). -/
theorem entry_step (es : List Str) (e : Str) (he : e ∈ es)
    (hb : (psplit e).2 ≠ []) (hd : (psplit e).1 ≠ []) :
    (psplit e).1 ∈ es ∨ synthesize_dirs es (psplit e).1 ≠ [] := by
  obtain ⟨s, t, hst⟩ := List.append_of_mem he
  have hrw : synthesize_dirs es = (s ++ e :: t).foldl (synthStep es) (fun _ => []) := by
    unfold synthesize_dirs
    rw [← hst]
  rw [hrw, List.foldl_append, List.foldl_cons]
  rcases walkF_head es ((psplit e).1.length + 1)
      (s.foldl (synthStep es) (fun _ => [])) (psplit e).1 (psplit e).2
      (by omega) hd hb with h | h
  · exact Or.inl h
  · refine Or.inr (foldl_preserve es t _ _ ?_)
    exact h

theorem chain_covered (es : List Str) :
    ∀ (n : Nat) (p : Str), p.length ≤ n →
    (p ∈ es ∨ synthesize_dirs es p ≠ []) →
    ∀ a ∈ ancestors p, a ∈ es ∨ synthesize_dirs es a ≠ [] := by
  intro n
  induction n with
  | zero =>
    intro p hp _ a ha
    have : p = [] := List.length_eq_zero.mp (Nat.le_zero.mp hp)
    subst this
    unfold ancestors at ha
    rw [ancestorsF_nil] at ha
    cases ha
  | succ m ih =>
    intro p hp hcov a ha
    rw [ancestors_eq p] at ha
    by_cases hc : (psplit p).2 = [] ∨ isRoot (psplit p).1
    · rw [if_pos hc] at ha
      cases ha
    · rw [if_neg hc] at ha
      push_neg at hc
      have hd_ne : (psplit p).1 ≠ [] := by
        intro he
        apply hc.2
        rw [he]
        intro c hcm
        cases hcm
      have hhead : (psplit p).1 ∈ es ∨ synthesize_dirs es (psplit p).1 ≠ [] := by
        rcases hcov with h | h
        · exact entry_step es p h hc.1 hd_ne
        · rcases synthesize_dirs_inv es p h with h2 | h2 | h2 | h2
          · exact absurd h2 hc.1
          · exact absurd h2 hd_ne
          · exact Or.inl h2
          · exact Or.inr h2
      have hnr : ¬ isRoot p := not_isRoot_of_psplit_snd_ne_nil p hc.1
      have hlt := psplit_length_lt p hnr
      rcases List.mem_cons.mp ha with ha1 | ha1
      · subst ha1
        exact hhead
      · exact ih (psplit p).1 (by omega) hhead a ha1

/-- C2: for every finite list of entry keys, every proper ancestor directory
(up to and excluding the root) of every entry's virtual path is a key of the
synthesized dirs mapping unless that ancestor is itself an entry key, for any
iteration order over the entries. -/
theorem synthesize_dirs_complete (es : List Str) (e : Str) (he : e ∈ es) :
    ∀ a ∈ ancestors e, a ∈ es ∨ synthesize_dirs es a ≠ [] :=
  chain_covered es e.length e le_rfl (Or.inl he)

/-- Witness for C2: the entry `/a/b/c` has proper ancestors `/a/b` and `/a`,
and `/a` (not itself an entry) is a key of the synthesized mapping. -/
theorem synthesize_dirs_complete_witness :
    (("/a".data : Str) ∈ ancestors ("/a/b/c".data)) ∧
    (("/a".data : Str) ∈ ["/a/b/c".data] ∨
      synthesize_dirs ["/a/b/c".data] ("/a".data) ≠ []) :=
  ⟨by decide, synthesize_dirs_complete ["/a/b/c".data] ("/a/b/c".data)
    (by decide) ("/a".data) (by decide)⟩

/-! ### The entries dict and the resolver (`MapFuse._find_referent`) -/

/-- One Python dict insertion on an association list with unique keys:
replace in place when the key is present (dict insertion order is preserved),
otherwise append. -/
def dinsert : List (Str × Str) → Str × Str → List (Str × Str)
  | [], kv => [kv]
  | p :: m, kv => if kv.1 = p.1 then (kv.1, kv.2) :: m else p :: dinsert m kv

/-- Build a Python dict from a pair sequence (later occurrences of a key
overwrite earlier ones). -/
def dictOf (ps : List (Str × Str)) : List (Str × Str) := ps.foldl dinsert []

/-- Python dict lookup. -/
def dlookup : List (Str × Str) → Str → Option Str
  | [], _ => none
  | (k, v) :: m, x => if x = k then some v else dlookup m x

/-- The `entries` dict built by `MapFuse.read_list` (src/mapperfs.py lines
73-81): `{ mounted.rstrip('/'): real.rstrip('/') for (real, mounted) in
self.pair_source() }`. -/
def entriesOf (pairs : List (Str × Str)) : List (Str × Str) :=
  dictOf (pairs.map (fun rv => (rstripSlash rv.2, rstripSlash rv.1)))

/-- The `dirs` mapping built by `MapFuse.read_list`:
`self._synthesize_dirs(entries)`, iterating over the dict keys. -/
def dirsOf (pairs : List (Str × Str)) : Dirs :=
  synthesize_dirs ((entriesOf pairs).map Prod.fst)

/-- The result of `_find_referent`: either a real path (leaf) or a
synthesized `Directory` (its member set). -/
inductive Referent where
  | leaf (real : Str)
  | dir (children : List DirMember)
deriving DecidableEq

/-- The fallback `while` loop of `_find_referent` (src/mapperfs.py lines
104-110, src/generic.py lines 63-67), with explicit fuel:
`while base and not (left in entries or left in dirs):
left, base = os.path.split(left); right = os.path.join(base, right)`. -/
def frLoopF (entries : List (Str × Str)) (dirs : Dirs) :
    Nat → Str → Str → Str → Str × Str
  | 0, left, _, right => (left, right)
  | n+1, left, base, right =>
    if base ≠ [] ∧ dlookup entries left = none ∧ dirs left = [] then
      frLoopF entries dirs n (psplit left).1 (psplit left).2
        (pjoin (psplit left).2 right)
    else (left, right)

/-- `MapFuse._find_referent(path)` (src/mapperfs.py lines 96-117,
src/generic.py lines 52-73): exact entry match, then exact synthesized
directory match, then the fallback walk; `none` models `FuseOSError(ENOENT)`.
The `isdir` oracle models `os.path.isdir` on the real filesystem. -/
def find_referent (entries : List (Str × Str)) (dirs : Dirs)
    (isdir : Str → Bool) (path : Str) : Option Referent :=
  match dlookup entries path with
  | some r => some (.leaf r)
  | none =>
    if dirs path ≠ [] then some (.dir (dirs path))
    else
      let lr := frLoopF entries dirs ((psplit path).1.length + 1)
        (psplit path).1 (psplit path).2 (psplit path).2
      if lr.1 ≠ [] then
        match dlookup entries lr.1 with
        | some r => if isdir r then some (.leaf (pjoin r lr.2)) else none
        | none => none
      else none

/-- Declarative description of the resolver's fallback walk: from state
`(left, base, right)` the walk reaches the final state `(l, r)`.  A `step`
strips one component (the loop guard holds); `stop` ends the walk when the
base is exhausted or `left` hits an entry or a synthesized directory. -/
inductive FallbackWalk (entries : List (Str × Str)) (dirs : Dirs) :
    Str → Str → Str → Str → Str → Prop where
  | stop (left base right : Str)
      (h : base = [] ∨ dlookup entries left ≠ none ∨ dirs left ≠ []) :
      FallbackWalk entries dirs left base right left right
  | step (left base right l r : Str)
      (hb : base ≠ []) (he : dlookup entries left = none) (hd : dirs left = [])
      (hrest : FallbackWalk entries dirs (psplit left).1 (psplit left).2
        (pjoin (psplit left).2 right) l r) :
      FallbackWalk entries dirs left base right l r

theorem frLoopF_walk (entries : List (Str × Str)) (dirs : Dirs) :
    ∀ (n : Nat) (left base right : Str), walkMeasure left base ≤ n →
    FallbackWalk entries dirs left base right
      (frLoopF entries dirs n left base right).1
      (frLoopF entries dirs n left base right).2 := by
  intro n
  induction n with
  | zero =>
    intro left base right hm
    have hb : base = [] := by
      unfold walkMeasure at hm
      by_contra hbne
      rw [if_neg hbne] at hm
      omega
    exact FallbackWalk.stop left base right (Or.inl hb)
  | succ m ih =>
    intro left base right hm
    rw [frLoopF]
    by_cases hg : base ≠ [] ∧ dlookup entries left = none ∧ dirs left = []
    · rw [if_pos hg]
      refine FallbackWalk.step left base right _ _ hg.1 hg.2.1 hg.2.2 ?_
      apply ih
      have hdm : left.length + 1 ≤ m + 1 := by
        unfold walkMeasure at hm
        rw [if_neg hg.1] at hm
        exact hm
      rcases psplit_shrink left with ⟨_, heq⟩ | hlt
      · rw [heq]
        unfold walkMeasure
        simp
        omega
      · unfold walkMeasure
        split <;> omega
    · rw [if_neg hg]
      push_neg at hg
      refine FallbackWalk.stop left base right ?_
      by_cases hb : base = []
      · exact Or.inl hb
      · rcases Option.eq_none_or_eq_some (dlookup entries left) with h | ⟨v, h⟩
        · exact Or.inr (Or.inr (hg hb h))
        · exact Or.inr (Or.inl (by rw [h]; exact Option.some_ne_none v))

theorem FallbackWalk_unique (entries : List (Str × Str)) (dirs : Dirs)
    (left base right l r l' r' : Str)
    (h1 : FallbackWalk entries dirs left base right l r)
    (h2 : FallbackWalk entries dirs left base right l' r') :
    l = l' ∧ r = r' := by
  induction h1 with
  | stop a b c h =>
    cases h2 with
    | stop => exact ⟨rfl, rfl⟩
    | step _ _ _ _ _ hb he hd _ =>
      rcases h with h | h | h
      · exact absurd h hb
      · exact absurd he h
      · exact absurd hd h
  | step a b c l0 r0 hb he hd hrest ih =>
    cases h2 with
    | stop _ _ _ h =>
      rcases h with h | h | h
      · exact absurd h hb
      · exact absurd he h
      · exact absurd hd h
    | step _ _ _ _ _ _ _ _ hrest2 => exact ih hrest2

theorem find_referent_eval (entries : List (Str × Str)) (dirs : Dirs)
    (isdir : Str → Bool) (path l r : Str)
    (hmiss : dlookup entries path = none) (hdirs : dirs path = [])
    (hl : (frLoopF entries dirs ((psplit path).1.length + 1)
      (psplit path).1 (psplit path).2 (psplit path).2) = (l, r)) :
    find_referent entries dirs isdir path =
      (if l ≠ [] then
        match dlookup entries l with
        | some rr => if isdir rr then some (Referent.leaf (pjoin rr r)) else none
        | none => none
      else none) := by
  unfold find_referent
  rw [hmiss, hdirs]
  simp only [ne_eq, not_true_eq_false, if_false, hl]

/-- C1 (amended): when the path matches neither `entries` nor `dirs` exactly,
the fallback walk strips components until the remaining prefix hits an entry
or a synthesized directory (or the base is exhausted); the resolver returns
`realpath(prefix) + accumulated suffix` exactly when the prefix it stopped at
is an entry whose real path is a directory, and fails with NotFound when the
stopping prefix is not an entry (in particular when it is a synthesized
`DirectoryNode`), when the entry's real path is not a directory, or when the
prefix is empty. -/
theorem find_referent_fallback_characterization
    (entries : List (Str × Str)) (dirs : Dirs) (isdir : Str → Bool)
    (path l r rp : Str)
    (hmiss : dlookup entries path = none) (hdirs : dirs path = [])
    (hwalk : FallbackWalk entries dirs (psplit path).1 (psplit path).2
      (psplit path).2 l r) :
    (l ≠ [] → dlookup entries l = some rp → isdir rp = true →
      find_referent entries dirs isdir path = some (Referent.leaf (pjoin rp r))) ∧
    (dlookup entries l = none → find_referent entries dirs isdir path = none) ∧
    (l = [] → find_referent entries dirs isdir path = none) ∧
    (dlookup entries l = some rp → isdir rp = false →
      find_referent entries dirs isdir path = none) := by
  have hfuel : walkMeasure (psplit path).1 (psplit path).2 ≤
      (psplit path).1.length + 1 := by
    unfold walkMeasure
    split <;> omega
  have hlw := frLoopF_walk entries dirs ((psplit path).1.length + 1)
    (psplit path).1 (psplit path).2 (psplit path).2 hfuel
  obtain ⟨hl, hr⟩ := FallbackWalk_unique entries dirs (psplit path).1
    (psplit path).2 (psplit path).2 _ _ l r hlw hwalk
  have hpair : (frLoopF entries dirs ((psplit path).1.length + 1)
      (psplit path).1 (psplit path).2 (psplit path).2) = (l, r) := by
    rw [Prod.ext_iff]
    exact ⟨hl, hr⟩
  have heval := find_referent_eval entries dirs isdir path l r hmiss hdirs hpair
  refine ⟨?_, ?_, ?_, ?_⟩
  · intro hne hsome htrue
    rw [heval, if_pos hne, hsome]
    simp [htrue]
  · intro hnone
    rw [heval]
    by_cases hne : l = []
    · rw [if_neg (by simpa using hne)]
    · rw [if_pos hne, hnone]
  · intro hnil
    rw [heval, if_neg (by simpa using hnil)]
  · intro hsome hfalse
    rw [heval]
    by_cases hne : l = []
    · rw [if_neg (by simpa using hne)]
    · rw [if_pos hne, hsome]
      simp [hfalse]

/-- Entry pairs for the C1 counterexample: `/a/b/c ↦ /r1` and `/a ↦ /r2`
(pair_source yields `(real, mounted)` pairs). -/
def ex1pairs : List (Str × Str) := [("/r1".data, "/a/b/c".data), ("/r2".data, "/a".data)]

def ex1entries : List (Str × Str) := entriesOf ex1pairs

def ex1dirs : Dirs := dirsOf ex1pairs

/-- isdir oracle for the C1 counterexample: only `/r2` is a real directory. -/
def ex1isdir : Str → Bool := fun p => p == "/r2".data

/-- C1 counterexample: for the built index with entries `/a/b/c ↦ /r1` and
`/a ↦ /r2`, the path `/a/b/x` matches neither mapping exactly, the shallower
prefix `/a` maps to the existing real directory `/r2`, and the prefix never
becomes empty — yet the resolver fails with NotFound, because the fallback
walk stops (rather than continuing) at the synthesized DirectoryNode `/a/b`.
The claim predicts the result `/r2/b/x`. -/
theorem find_referent_dirs_blocks_fallback :
    dlookup ex1entries ("/a/b/x".data) = none ∧
    ex1dirs ("/a/b/x".data) = [] ∧
    dlookup ex1entries ("/a".data) = some ("/r2".data) ∧
    ex1isdir ("/r2".data) = true ∧
    ex1dirs ("/a/b".data) ≠ [] ∧
    find_referent ex1entries ex1dirs ex1isdir ("/a/b/x".data) = none ∧
    find_referent ex1entries ex1dirs ex1isdir ("/a/b/x".data) ≠
      some (Referent.leaf ("/r2/b/x".data)) := by
  decide

/-- Entry pairs for the C1 witness: a single mounted directory `/a ↦ /r`. -/
def ex2pairs : List (Str × Str) := [("/r".data, "/a".data)]

/-- Witness for the amended C1: with `/a ↦ /r` mounted and `/r` a real
directory, the unlisted path `/a/b/x` resolves through the fallback walk to
`/r/b/x`. -/
theorem find_referent_fallback_witness :
    find_referent (entriesOf ex2pairs) (dirsOf ex2pairs) (fun _ => true)
      ("/a/b/x".data) = some (Referent.leaf ("/r/b/x".data)) := by
  have hfuel : walkMeasure (psplit ("/a/b/x".data)).1 (psplit ("/a/b/x".data)).2 ≤
      (psplit ("/a/b/x".data)).1.length + 1 := by decide
  have hwalk := frLoopF_walk (entriesOf ex2pairs) (dirsOf ex2pairs)
    ((psplit ("/a/b/x".data)).1.length + 1) (psplit ("/a/b/x".data)).1
    (psplit ("/a/b/x".data)).2 (psplit ("/a/b/x".data)).2 hfuel
  have h := (find_referent_fallback_characterization (entriesOf ex2pairs)
    (dirsOf ex2pairs) (fun _ => true) ("/a/b/x".data) _ _ ("/r".data)
    (by decide) (by decide) hwalk).1 (by decide) (by decide) (by decide)
  rw [h]
  decide

/-! ### Identity (copy) strategy round trip (claim C5) -/

/-- `TrivialMapper.pairs` (src/mapperfs.py lines 229-232): yields `(f, f)`. -/
def trivialPairs (files : List Str) : List (Str × Str) :=
  files.map (fun f => (f, f))

/-- Every pair in the dict maps a key to itself. -/
def goodDict (m : List (Str × Str)) : Prop := ∀ kv ∈ m, kv.1 = kv.2

theorem dinsert_good (m : List (Str × Str)) (kv : Str × Str)
    (hm : goodDict m) (hkv : kv.1 = kv.2) : goodDict (dinsert m kv) := by
  induction m with
  | nil =>
    intro p hp
    rw [dinsert] at hp
    have hp1 : p = kv := List.mem_singleton.mp hp
    rw [hp1]
    exact hkv
  | cons a t ih =>
    unfold dinsert
    by_cases hc : kv.1 = a.1
    · rw [if_pos hc]
      intro p hp
      rcases List.mem_cons.mp hp with hp | hp
      · rw [hp]; exact hkv
      · exact hm p (List.mem_cons_of_mem a hp)
    · rw [if_neg hc]
      intro p hp
      rcases List.mem_cons.mp hp with hp | hp
      · rw [hp]; exact hm a (List.mem_cons_self a t)
      · exact ih (fun q hq => hm q (List.mem_cons_of_mem a hq)) p hp

theorem dlookup_good (m : List (Str × Str)) (hm : goodDict m) (k v : Str)
    (h : dlookup m k = some v) : v = k := by
  induction m with
  | nil => cases h
  | cons a t ih =>
    obtain ⟨a1, a2⟩ := a
    rw [dlookup] at h
    by_cases hc : k = a1
    · rw [if_pos hc] at h
      have hv : a2 = v := Option.some.inj h
      have heq : a1 = a2 := hm (a1, a2) (List.mem_cons_self _ t)
      subst hv
      subst hc
      exact heq.symm
    · rw [if_neg hc] at h
      exact ih (fun q hq => hm q (List.mem_cons_of_mem _ hq)) h

theorem dlookup_dinsert_isSome (m : List (Str × Str)) (kv : Str × Str) (x : Str)
    (h : (dlookup m x).isSome ∨ x = kv.1) :
    (dlookup (dinsert m kv) x).isSome := by
  induction m with
  | nil =>
    rcases h with h | h
    · rw [dlookup] at h
      cases h
    · unfold dinsert
      rw [dlookup, if_pos h]
      rfl
  | cons a t ih =>
    obtain ⟨a1, a2⟩ := a
    unfold dinsert
    by_cases hc : kv.1 = a1
    · rw [if_pos hc, dlookup]
      by_cases hx : x = kv.1
      · rw [if_pos hx]
        rfl
      · rw [if_neg hx]
        rcases h with h | h
        · rw [dlookup] at h
          rw [hc] at hx
          rw [if_neg hx] at h
          exact h
        · exact absurd h hx
    · rw [if_neg hc, dlookup]
      by_cases hx : x = a1
      · rw [if_pos hx]
        rfl
      · rw [if_neg hx]
        apply ih
        rcases h with h | h
        · rw [dlookup, if_neg hx] at h
          exact Or.inl h
        · exact Or.inr h

theorem dlookup_foldl_isSome (ps : List (Str × Str)) :
    ∀ (m : List (Str × Str)) (x : Str),
    ((dlookup m x).isSome ∨ x ∈ ps.map Prod.fst) →
    (dlookup (ps.foldl dinsert m) x).isSome := by
  induction ps with
  | nil =>
    intro m x h
    rcases h with h | h
    · exact h
    · cases h
  | cons kv t ih =>
    intro m x h
    rw [List.foldl_cons]
    apply ih
    rcases h with h | h
    · exact Or.inl (dlookup_dinsert_isSome m kv x (Or.inl h))
    · rw [List.map_cons] at h
      rcases List.mem_cons.mp h with h1 | h1
      · exact Or.inl (dlookup_dinsert_isSome m kv x (Or.inr h1))
      · exact Or.inr h1

theorem goodDict_foldl (ps : List (Str × Str)) :
    ∀ (m : List (Str × Str)), goodDict m → (∀ kv ∈ ps, kv.1 = kv.2) →
    goodDict (ps.foldl dinsert m) := by
  induction ps with
  | nil => intro m hm _; exact hm
  | cons kv t ih =>
    intro m hm hps
    rw [List.foldl_cons]
    exact ih _ (dinsert_good m kv hm (hps kv (List.mem_cons_self _ _)))
      (fun q hq => hps q (List.mem_cons_of_mem _ hq))

/-- C5 (amended): under the identity (copy) strategy, for every input real
path `f` with no trailing slash, building the index and resolving `f` returns
`f` itself (via an exact entry hit). -/
theorem identity_roundtrip_normalized (files : List Str) (isdir : Str → Bool)
    (f : Str) (hf : f ∈ files) (hnorm : rstripSlash f = f) :
    find_referent (entriesOf (trivialPairs files))
      (dirsOf (trivialPairs files)) isdir f = some (Referent.leaf f) := by
  have hmap : (trivialPairs files).map (fun rv => (rstripSlash rv.2, rstripSlash rv.1))
      = files.map (fun x => (rstripSlash x, rstripSlash x)) := by
    unfold trivialPairs
    rw [List.map_map]
    rfl
  have hgood : goodDict (entriesOf (trivialPairs files)) := by
    unfold entriesOf dictOf
    apply goodDict_foldl
    · intro p hp
      cases hp
    · intro kv hkv
      rw [hmap] at hkv
      obtain ⟨x, _, hx⟩ := List.mem_map.mp hkv
      rw [← hx]
  have hkey : f ∈ ((trivialPairs files).map
      (fun rv => (rstripSlash rv.2, rstripSlash rv.1))).map Prod.fst := by
    rw [hmap, List.map_map]
    refine List.mem_map.mpr ⟨f, hf, ?_⟩
    exact hnorm
  have hsome : (dlookup (entriesOf (trivialPairs files)) f).isSome := by
    unfold entriesOf dictOf
    exact dlookup_foldl_isSome _ [] f (Or.inr hkey)
  obtain ⟨v, hv⟩ := Option.isSome_iff_exists.mp hsome
  have hvf : v = f := dlookup_good _ hgood f v hv
  subst hvf
  unfold find_referent
  rw [hv]

/-- Witness for the amended C5: the normalized input path `/m/a` resolves to
itself even when nothing on the real filesystem is a directory. -/
theorem identity_roundtrip_witness :
    find_referent (entriesOf (trivialPairs ["/m/a".data]))
      (dirsOf (trivialPairs ["/m/a".data])) (fun _ => false) ("/m/a".data)
      = some (Referent.leaf ("/m/a".data)) :=
  identity_roundtrip_normalized ["/m/a".data] (fun _ => false) ("/m/a".data)
    (by decide) (by decide)

/-- C5 counterexample: the input real path `/` (which `read_list` normalizes
to the entry key `""`) does not resolve to itself: `Resolve("/")` fails with
NotFound, whatever the real filesystem looks like for the isdir oracle used
here. -/
theorem identity_roundtrip_counterexample :
    find_referent (entriesOf (trivialPairs ["/".data]))
      (dirsOf (trivialPairs ["/".data])) (fun _ => true) ("/".data) = none ∧
    find_referent (entriesOf (trivialPairs ["/".data]))
      (dirsOf (trivialPairs ["/".data])) (fun _ => true) ("/".data) ≠
      some (Referent.leaf ("/".data)) := by
  decide

/-! ### The collision resolver (`FlatMapper._uncollide` / `Uncollider`) -/

/-- Decimal digits of `n` (most significant first), with fuel; `fuel = n`
suffices since `n / 10 < n` for positive `n`. -/
def decDigitsF : Nat → Nat → Str
  | 0, _ => []
  | fuel+1, n =>
    if n = 0 then []
    else decDigitsF fuel (n / 10) ++ [Char.ofNat (48 + n % 10)]

/-- Python `'{n}'.format(n=n)`: the decimal representation of `n`. -/
def decRepr (n : Nat) : Str := if n = 0 then ['0'] else decDigitsF n n

/-- The candidate name `self.fmt.format(base=base, ext=ext, n=n)` with
`fmt = '{base}-{n}{ext}'` and `base, ext = os.path.splitext(filename)`. -/
def candidate (filename : Str) (n : Nat) : Str :=
  (psplitext filename).1 ++ '-' :: decRepr n ++ (psplitext filename).2

/-- Maximal length of a member of the list. -/
def maxLen (l : List Str) : Nat := l.foldr (fun s acc => max s.length acc) 0

theorem mem_length_le_maxLen (l : List Str) (s : Str) (h : s ∈ l) :
    s.length ≤ maxLen l := by
  induction l with
  | nil => cases h
  | cons a t ih =>
    rcases List.mem_cons.mp h with h1 | h1
    · rw [h1]
      exact Nat.le_max_left _ _
    · exact Nat.le_trans (ih h1) (Nat.le_max_right _ _)

theorem decDigitsF_length (fuel : Nat) :
    ∀ (n k : Nat), n ≤ fuel → 10 ^ k ≤ n → k + 1 ≤ (decDigitsF fuel n).length := by
  induction fuel with
  | zero =>
    intro n k hn hk
    have : 0 < 10 ^ k := Nat.pos_pow_of_pos k (by omega)
    omega
  | succ m ih =>
    intro n k hn hk
    have hn0 : n ≠ 0 := by
      have : 0 < 10 ^ k := Nat.pos_pow_of_pos k (by omega)
      omega
    rw [decDigitsF, if_neg hn0, List.length_append]
    cases k with
    | zero => simp
    | succ j =>
      have hdiv : 10 ^ j ≤ n / 10 := by
        rw [Nat.le_div_iff_mul_le (by omega)]
        calc 10 ^ j * 10 = 10 ^ (j + 1) := by ring
        _ ≤ n := hk
      have hlt : n / 10 < n := Nat.div_lt_self (by omega) (by omega)
      have := ih (n / 10) j (by omega) hdiv
      simp
      omega

theorem candidate_length (filename : Str) (n : Nat) :
    (decRepr n).length + 1 ≤ (candidate filename n).length := by
  unfold candidate
  rw [List.length_append, List.length_append, List.length_cons]
  omega

/-- The search in `_new_name` always finds a free candidate: a candidate with
a long enough decimal part is longer than every reserved name.  This is the
termination argument for the unbounded `while True` loop (claim C8). -/
theorem nnExists (filename : Str) (reserved : List Str) :
    ∃ k, candidate filename (k + 1) ∉ reserved := by
  refine ⟨10 ^ maxLen reserved - 1, ?_⟩
  have hpos : 0 < 10 ^ maxLen reserved := Nat.pos_pow_of_pos _ (by omega)
  have hn : 10 ^ maxLen reserved - 1 + 1 = 10 ^ maxLen reserved := by omega
  rw [hn]
  intro hmem
  have hlen := mem_length_le_maxLen reserved _ hmem
  have hrep : maxLen reserved + 1 ≤ (decRepr (10 ^ maxLen reserved)).length := by
    unfold decRepr
    rw [if_neg (by omega)]
    exact decDigitsF_length _ _ _ le_rfl le_rfl
  have := candidate_length filename (10 ^ maxLen reserved)
  omega

/-- `FlatMapper._new_name(filename, reserved)` (src/mapperfs.py lines
266-273, src/generic.py lines 239-246): starting from `n = 1`, return the
first formatted candidate not in the reserved set. -/
def new_name (filename : Str) (reserved : List Str) : Str :=
  candidate filename (Nat.find (nnExists filename reserved) + 1)

theorem new_name_not_mem (filename : Str) (reserved : List Str) :
    new_name filename reserved ∉ reserved :=
  Nat.find_spec (nnExists filename reserved)

/-- Python `set.add`. -/
def sinsert (a : Str) (l : List Str) : List Str := if a ∈ l then l else a :: l

theorem mem_sinsert_iff (a b : Str) (l : List Str) :
    b ∈ sinsert a l ↔ b = a ∨ b ∈ l := by
  unfold sinsert
  by_cases h : a ∈ l
  · rw [if_pos h]
    constructor
    · exact fun hb => Or.inr hb
    · intro hb
      rcases hb with hb | hb
      · rw [hb]; exact h
      · exact hb
  · rw [if_neg h]
    exact List.mem_cons

/-- The loop body of `_uncollide`: go through the files in order, renaming
any that was already yielded, and extending both the reserved and yielded
sets with each emitted name. -/
def uncollideGo : List Str → List Str → List Str → List Str
  | [], _, _ => []
  | f :: fs, reserved, yielded =>
    (if f ∈ yielded then new_name f reserved else f) ::
      uncollideGo fs
        (sinsert (if f ∈ yielded then new_name f reserved else f) reserved)
        (sinsert (if f ∈ yielded then new_name f reserved else f) yielded)

/-- `FlatMapper._uncollide(files)` (src/mapperfs.py lines 247-264,
src/generic.py lines 219-237): the reserved set is seeded with every input
name, the yielded set starts empty. -/
def uncollide (files : List Str) : List Str := uncollideGo files files []

theorem uncollideGo_length : ∀ (fs reserved yielded : List Str),
    (uncollideGo fs reserved yielded).length = fs.length := by
  intro fs
  induction fs with
  | nil => intro r y; rfl
  | cons f t ih =>
    intro r y
    rw [uncollideGo]
    simp only [List.length_cons]
    rw [ih]

theorem uncollideGo_nodup : ∀ (fs reserved yielded : List Str),
    (∀ x ∈ yielded, x ∈ reserved) →
    (uncollideGo fs reserved yielded).Nodup ∧
      ∀ z ∈ uncollideGo fs reserved yielded, z ∉ yielded := by
  intro fs
  induction fs with
  | nil =>
    intro r y _
    constructor
    · exact List.nodup_nil
    · intro z hz; cases hz
  | cons f t ih =>
    intro r y hsub
    rw [uncollideGo]
    set g := if f ∈ y then new_name f r else f with hg
    have hgy : g ∉ y := by
      rw [hg]
      by_cases hf : f ∈ y
      · rw [if_pos hf]
        intro hmem
        exact new_name_not_mem f r (hsub _ hmem)
      · rw [if_neg hf]
        exact hf
    have hsub' : ∀ x ∈ sinsert g y, x ∈ sinsert g r := by
      intro x hx
      rcases (mem_sinsert_iff g x y).mp hx with h1 | h1
      · rw [mem_sinsert_iff]; exact Or.inl h1
      · rw [mem_sinsert_iff]; exact Or.inr (hsub x h1)
    obtain ⟨hnd, hny⟩ := ih (sinsert g r) (sinsert g y) hsub'
    constructor
    · rw [List.nodup_cons]
      refine ⟨?_, hnd⟩
      intro hmem
      have := hny g hmem
      rw [mem_sinsert_iff] at this
      push_neg at this
      exact this.1 rfl
    · intro z hz
      rcases List.mem_cons.mp hz with h1 | h1
      · rw [h1]; exact hgy
      · intro hzy
        exact hny z h1 ((mem_sinsert_iff g z y).mpr (Or.inr hzy))

theorem uncollideGo_get : ∀ (fs reserved yielded : List Str) (i : Nat)
    (h : i < fs.length),
    ∃ h2 : i < (uncollideGo fs reserved yielded).length,
      (uncollideGo fs reserved yielded).get ⟨i, h2⟩ = fs.get ⟨i, h⟩ ∨
      ∃ n, 1 ≤ n ∧
        (uncollideGo fs reserved yielded).get ⟨i, h2⟩ = candidate (fs.get ⟨i, h⟩) n := by
  intro fs
  induction fs with
  | nil =>
    intro r y i h
    cases h
  | cons f t ih =>
    intro r y i h
    have hcons : uncollideGo (f :: t) r y =
        (if f ∈ y then new_name f r else f) ::
          uncollideGo t (sinsert (if f ∈ y then new_name f r else f) r)
            (sinsert (if f ∈ y then new_name f r else f) y) := rfl
    cases i with
    | zero =>
      refine ⟨by rw [uncollideGo_length]; exact h, ?_⟩
      simp only [hcons, List.get]
      by_cases hf : f ∈ y
      · rw [if_pos hf]
        exact Or.inr ⟨Nat.find (nnExists f r) + 1, by omega, rfl⟩
      · rw [if_neg hf]
        exact Or.inl rfl
    | succ j =>
      have hj : j < t.length := by
        rw [List.length_cons] at h
        omega
      obtain ⟨h2, hcase⟩ := ih (sinsert (if f ∈ y then new_name f r else f) r)
        (sinsert (if f ∈ y then new_name f r else f) y) j hj
      refine ⟨by rw [uncollideGo_length]; exact h, ?_⟩
      simp only [hcons, List.get]
      rcases hcase with hc | hc
      · exact Or.inl hc
      · exact Or.inr hc

/-- C3: for every input name sequence, `_uncollide` yields a sequence of the
same length, pairwise distinct, and the i-th output is the i-th input either
unchanged or replaced by a formatted candidate `stem-n.ext` of it. -/
theorem uncollide_spec (files : List Str) :
    (uncollide files).length = files.length ∧
    (uncollide files).Nodup ∧
    ∀ (i : Nat) (h : i < files.length),
      ∃ h2 : i < (uncollide files).length,
        (uncollide files).get ⟨i, h2⟩ = files.get ⟨i, h⟩ ∨
        ∃ n, 1 ≤ n ∧ (uncollide files).get ⟨i, h2⟩ = candidate (files.get ⟨i, h⟩) n := by
  refine ⟨uncollideGo_length files files [], ?_, ?_⟩
  · exact (uncollideGo_nodup files files [] (by intro x hx; cases hx)).1
  · intro i h
    exact uncollideGo_get files files [] i h

/-- Witness for C3 at the concrete input `["a.txt", "b.txt", "a.txt"]`. -/
theorem uncollide_spec_witness :
    (uncollide ["a.txt".data, "b.txt".data, "a.txt".data]).length =
      (["a.txt".data, "b.txt".data, "a.txt".data] : List Str).length ∧
    (uncollide ["a.txt".data, "b.txt".data, "a.txt".data]).Nodup :=
  ⟨(uncollide_spec ["a.txt".data, "b.txt".data, "a.txt".data]).1,
    (uncollide_spec ["a.txt".data, "b.txt".data, "a.txt".data]).2.1⟩

/-- C8: for every filename and finite reserved set, the candidate search of
`_new_name` terminates with the first free candidate: there is an `n ≥ 1`
with `stem-n.ext` outside the reserved set such that `_new_name` returns
exactly that candidate, every smaller candidate being reserved. -/
theorem new_name_terminates (filename : Str) (reserved : List Str) :
    ∃ n, 1 ≤ n ∧ candidate filename n ∉ reserved ∧
      new_name filename reserved = candidate filename n ∧
      ∀ m, 1 ≤ m → m < n → candidate filename m ∈ reserved := by
  refine ⟨Nat.find (nnExists filename reserved) + 1, by omega,
    Nat.find_spec (nnExists filename reserved), rfl, ?_⟩
  intro m hm1 hmlt
  obtain ⟨j, hj⟩ : ∃ j, m = j + 1 := ⟨m - 1, by omega⟩
  subst hj
  have hjlt : j < Nat.find (nnExists filename reserved) := by omega
  have := Nat.find_min (nnExists filename reserved) hjlt
  by_contra hcon
  exact this hcon

/-- Witness for C8 at a concrete input where the first candidate is taken:
for `a.txt` with reserved set `{a.txt, a-1.txt}` the search must skip
`a-1.txt` and return `a-2.txt`. -/
theorem new_name_terminates_witness :
    ∃ n, 1 ≤ n ∧ candidate ("a.txt".data) n ∉ ["a.txt".data, "a-1.txt".data] ∧
      new_name ("a.txt".data) ["a.txt".data, "a-1.txt".data] =
        candidate ("a.txt".data) n ∧
      ∀ m, 1 ≤ m → m < n → candidate ("a.txt".data) m ∈
        ["a.txt".data, "a-1.txt".data] :=
  new_name_terminates ("a.txt".data) ["a.txt".data, "a-1.txt".data]

theorem new_name_a_txt :
    new_name ("a.txt".data) ["a.txt".data, "b.txt".data, "a.txt".data] =
      "a-1.txt".data := by
  unfold new_name
  have h0 : Nat.find (nnExists ("a.txt".data)
      ["a.txt".data, "b.txt".data, "a.txt".data]) = 0 := by
    rw [Nat.find_eq_zero]
    decide
  rw [h0]
  decide

/-- C4: on input `["a.txt", "b.txt", "a.txt"]` the resolver emits the first
two names unchanged and renames the repeated `a.txt` to `a-1.txt`, which
collides with no literal input name (the reserved set is seeded with all
inputs before any renaming). -/
theorem uncollide_non_preemption :
    uncollide ["a.txt".data, "b.txt".data, "a.txt".data] =
      ["a.txt".data, "b.txt".data, "a-1.txt".data] ∧
    ("a-1.txt".data : Str) ∉ (["a.txt".data, "b.txt".data, "a.txt".data] : List Str) := by
  constructor
  · have e1 : uncollide ["a.txt".data, "b.txt".data, "a.txt".data] =
        ["a.txt".data, "b.txt".data,
          new_name ("a.txt".data) ["a.txt".data, "b.txt".data, "a.txt".data]] := by
      rfl
    rw [e1, new_name_a_txt]
  · decide

/-! ### The common-prefix-trim strategy (`CommonMapper`, claim C7) -/

/-- Python string `<` (lexicographic order on characters). -/
def strLt : Str → Str → Bool
  | [], [] => false
  | [], _ :: _ => true
  | _ :: _, [] => false
  | a :: as, b :: bs => if a < b then true else if b < a then false else strLt as bs

/-- Python `min` over a nonempty sequence (first element plus rest). -/
def minStr (x : Str) (l : List Str) : Str :=
  l.foldl (fun m s => if strLt s m then s else m) x

/-- Python `max` over a nonempty sequence (first element plus rest). -/
def maxStr (x : Str) (l : List Str) : Str :=
  l.foldl (fun m s => if strLt m s then s else m) x

/-- The character scan inside `os.path.commonprefix`: compare the two
strings position by position, returning the agreeing part. -/
def cp2 : Str → Str → Str
  | a :: as, b :: bs => if a = b then a :: cp2 as bs else []
  | _, _ => []

/-- CPython `os.path.commonprefix(m)`: empty for an empty list, otherwise the
scan of the lexicographic minimum against the maximum. -/
def commonStem : List Str → Str
  | [] => []
  | x :: xs => cp2 (minStr x xs) (maxStr x xs)

/-- Python `s.rfind('/')`: index of the last slash, if any. -/
def lastSlashIdx (l : Str) : Option Nat :=
  match l.reverse.findIdx? (fun c => c = '/') with
  | none => none
  | some j => some (l.length - 1 - j)

/-- `CommonMapper._longest_common_path(file_list)` (src/mapperfs.py lines
284-296, src/generic.py lines 190-200): cut `os.path.commonprefix` back to
the last path separator; empty when there is none. -/
def longest_common_path (file_list : List Str) : Str :=
  match lastSlashIdx (commonStem file_list) with
  | none => []
  | some i => (commonStem file_list).take i

/-- `CommonMapper.pairs(files)` (src/mapperfs.py lines 277-283): zip each
file with the file minus the common directory path. -/
def commonPairs (files : List Str) : List (Str × Str) :=
  files.map (fun f => (f, f.drop (longest_common_path files).length))

/-- C7: the common-prefix-trim strategy on `["/a/b/c.txt", "/a/b/d.txt"]`
removes the longest common directory path `/a/b` (not the longest common
string prefix `/a/b/`...`): the virtual paths are `/c.txt` and `/d.txt`,
not `/.txt`. -/
theorem common_trim_boundary :
    commonPairs ["/a/b/c.txt".data, "/a/b/d.txt".data] =
      [("/a/b/c.txt".data, "/c.txt".data), ("/a/b/d.txt".data, "/d.txt".data)] ∧
    longest_common_path ["/a/b/c.txt".data, "/a/b/d.txt".data] = "/a/b".data ∧
    commonStem ["/a/b/c.txt".data, "/a/b/d.txt".data] = "/a/b/".data := by
  decide

/-! ### Synthesized directory attributes (`MapFuse.getattr`, claim C6) -/

/-- The attribute record returned by `getattr` (the keys used by the
source's dict literal, with times as abstract naturals). -/
structure Attrs where
  st_atime : Nat
  st_ctime : Nat
  st_mtime : Nat
  st_gid : Nat
  st_uid : Nat
  st_mode : Nat
  st_nlink : Nat
  st_size : Nat
deriving DecidableEq

/-- `stat.S_IFDIR` (0o040000). -/
def S_IFDIR : Nat := 16384

/-- `MapFuse.getattr` on a synthesized `Directory` (src/mapperfs.py lines
149-162): mode `S_IFDIR | 0o555`, nlink `2 + path.num_subdirs()`, size
`len(path)`, all times the index creation time, owner the effective
user/group of the process. -/
def getattrDir (ctime uid gid : Nat) (children : List DirMember) : Attrs :=
  { st_atime := ctime
    st_ctime := ctime
    st_mtime := ctime
    st_gid := gid
    st_uid := uid
    st_mode := Nat.lor S_IFDIR 365
    st_nlink := 2 + num_subdirs children
    st_size := children.length
    }

/-- C6 failing input: with the single entry `/a/b/c`, the synthesized
directory `/a` has the child `b` which is itself a synthesized directory
(`/a/b` is a dirs key), so the claim requires `st_nlink = 2 + 1 = 3`; but
the children of a `Directory` are stored as basename strings, never as
`Directory` objects, so `num_subdirs` counts zero and `getattr` returns
`st_nlink = 2` (the remaining claimed fields do hold: size, times, owner). -/
theorem getattr_nlink_always_two :
    (DirMember.name ("b".data) ∈ synthesize_dirs ["/a/b/c".data] ("/a".data)) ∧
    synthesize_dirs ["/a/b/c".data] ("/a/b".data) ≠ [] ∧
    num_subdirs (synthesize_dirs ["/a/b/c".data] ("/a".data)) = 0 ∧
    (getattrDir 7 5 6 (synthesize_dirs ["/a/b/c".data] ("/a".data))).st_nlink = 2 ∧
    (getattrDir 7 5 6 (synthesize_dirs ["/a/b/c".data] ("/a".data))).st_size = 1 ∧
    (getattrDir 7 5 6 (synthesize_dirs ["/a/b/c".data] ("/a".data))).st_mtime = 7 ∧
    (getattrDir 7 5 6 (synthesize_dirs ["/a/b/c".data] ("/a".data))).st_uid = 5 ∧
    (getattrDir 7 5 6 (synthesize_dirs ["/a/b/c".data] ("/a".data))).st_mode = 16749 := by
  decide

/-! ### Structural mutation operations (claim C10) -/

/-- The errno constants used by the source. -/
def EACCES : Nat := 13

def ENOENT : Nat := 2

/-- The mutable state of a `MapFuse` instance (the current snapshot). -/
structure MFState where
  entries : List (Str × Str)
  dirs : Dirs
  ctime : Nat

/-- `MapFuse.noaccess` (src/mapperfs.py lines 124-125): raise
`FuseOSError(EACCES)` unconditionally, touching nothing. -/
def noaccess (st : MFState) (_r : Referent) : Except Nat Unit × MFState :=
  (Except.error EACCES, st)

def create : MFState → Referent → Except Nat Unit × MFState := noaccess

def link : MFState → Referent → Except Nat Unit × MFState := noaccess

def mkdir : MFState → Referent → Except Nat Unit × MFState := noaccess

def mknod : MFState → Referent → Except Nat Unit × MFState := noaccess

def rename : MFState → Referent → Except Nat Unit × MFState := noaccess

def rmdir : MFState → Referent → Except Nat Unit × MFState := noaccess

def symlink : MFState → Referent → Except Nat Unit × MFState := noaccess

def unlink : MFState → Referent → Except Nat Unit × MFState := noaccess

/-- The structural mutation operations, all bound to `noaccess` in the
source (`create = noaccess`, ..., `unlink = noaccess`). -/
inductive StructOp where
  | create | link | mkdir | mknod | rename | rmdir | symlink | unlink
deriving DecidableEq

def opImpl : StructOp → MFState → Referent → Except Nat Unit × MFState
  | .create => create
  | .link => link
  | .mkdir => mkdir
  | .mknod => mknod
  | .rename => rename
  | .rmdir => rmdir
  | .symlink => symlink
  | .unlink => unlink

/-- `MapFuse.__call__` for a structural operation (src/mapperfs.py lines
119-122): resolve the path first (raising ENOENT on failure), then dispatch
to the bound handler with the resolved referent. -/
def structuralCall (op : StructOp) (st : MFState) (isdir : Str → Bool)
    (path : Str) : Except Nat Unit × MFState :=
  match find_referent st.entries st.dirs isdir path with
  | none => (Except.error ENOENT, st)
  | some r => opImpl op st r

/-- The path-based operations that the source binds to OS functions instead
of `noaccess`: `chmod = os.chmod` (src/mapperfs.py line 138), `chown =
os.chown` (line 139), `utimens = os.utime` (line 215), `readlink =
os.readlink` (line 184), and the content operations `read` (lines 172-175),
`write` (lines 217-220) and `truncate` (lines 211-213). -/
inductive DelegatedOp where
  | chmod | chown | utimens | readlink | read | write | truncate
deriving DecidableEq

/-- Outcome of dispatching one filesystem request: either a raised
`FuseOSError`, or an invocation of the underlying OS facility on the
resolved target (the OS itself is external to the engine, so the embedding
records which call was made and with which resolved referent). -/
inductive CallOutcome where
  | errno (e : Nat)
  | osCall (op : DelegatedOp) (target : Referent)
deriving DecidableEq

/-- `chmod = os.chmod`: the bound OS function is invoked with the resolved
referent; nothing of the engine state changes. -/
def chmodOp (st : MFState) (r : Referent) : CallOutcome × MFState :=
  (CallOutcome.osCall DelegatedOp.chmod r, st)

/-- `chown = os.chown`. -/
def chownOp (st : MFState) (r : Referent) : CallOutcome × MFState :=
  (CallOutcome.osCall DelegatedOp.chown r, st)

/-- `utimens = os.utime`. -/
def utimensOp (st : MFState) (r : Referent) : CallOutcome × MFState :=
  (CallOutcome.osCall DelegatedOp.utimens r, st)

/-- `readlink = os.readlink`. -/
def readlinkOp (st : MFState) (r : Referent) : CallOutcome × MFState :=
  (CallOutcome.osCall DelegatedOp.readlink r, st)

/-- `MapFuse.read`: `os.lseek`/`os.read` on the opened handle of the
resolved target. -/
def readOp (st : MFState) (r : Referent) : CallOutcome × MFState :=
  (CallOutcome.osCall DelegatedOp.read r, st)

/-- `MapFuse.write`: `os.lseek`/`os.write` on the opened handle of the
resolved target. -/
def writeOp (st : MFState) (r : Referent) : CallOutcome × MFState :=
  (CallOutcome.osCall DelegatedOp.write r, st)

/-- `MapFuse.truncate`: `open(path, 'r+')` and `f.truncate(length)` on the
resolved target. -/
def truncateOp (st : MFState) (r : Referent) : CallOutcome × MFState :=
  (CallOutcome.osCall DelegatedOp.truncate r, st)

def delegatedImpl : DelegatedOp → MFState → Referent → CallOutcome × MFState
  | .chmod => chmodOp
  | .chown => chownOp
  | .utimens => utimensOp
  | .readlink => readlinkOp
  | .read => readOp
  | .write => writeOp
  | .truncate => truncateOp

/-- `MapFuse.__call__` for an OS-delegated operation (src/mapperfs.py lines
119-122): resolve the path first (raising ENOENT on failure), then invoke
the bound OS function with the resolved referent. -/
def delegatedCall (op : DelegatedOp) (st : MFState) (isdir : Str → Bool)
    (path : Str) : CallOutcome × MFState :=
  match find_referent st.entries st.dirs isdir path with
  | none => (CallOutcome.errno ENOENT, st)
  | some r => delegatedImpl op st r

/-- A concrete identity-mapped state for the C10 correction: one entry
`/m/a ↦ /m/a`. -/
def exSt : MFState :=
  ⟨entriesOf (trivialPairs ["/m/a".data]), dirsOf (trivialPairs ["/m/a".data]), 0⟩

/-- C10 counterexample: `chmod` is none of the content operations read,
write, truncate, yet on the resolvable path `/m/a` it does not fail with
AccessDenied — it is delegated to the OS (`os.chmod`) with the resolved real
path, because the source binds `chmod = os.chmod` rather than `noaccess`.
So content operations are not the only operations ever delegated to the
real path. -/
theorem chmod_delegated_to_real_path :
    delegatedCall DelegatedOp.chmod exSt (fun _ => false) ("/m/a".data) =
      (CallOutcome.osCall DelegatedOp.chmod (Referent.leaf ("/m/a".data)), exSt) ∧
    (delegatedCall DelegatedOp.chmod exSt (fun _ => false) ("/m/a".data)).1 ≠
      CallOutcome.errno EACCES := by
  constructor
  · rfl
  · intro h
    have h2 : CallOutcome.osCall DelegatedOp.chmod (Referent.leaf ("/m/a".data)) =
        CallOutcome.errno EACCES := h
    cases h2

/-- C10 (amended): for every resolvable virtual path — whatever kind of
target it resolves to, leaf or synthesized directory — each of create, link,
mkdir, mknod, rename, rmdir, symlink and unlink fails with EACCES and leaves
the state unchanged; the content operations read, write and truncate are
delegated to the resolved real target, and so are the other path-based
operations bound to OS functions (chmod, chown, utimens, readlink) — the
delegated set is not limited to content operations. -/
theorem structural_noaccess_others_delegated :
    (∀ (op : StructOp) (st : MFState) (isdir : Str → Bool) (path : Str) (r : Referent),
      find_referent st.entries st.dirs isdir path = some r →
      structuralCall op st isdir path = (Except.error EACCES, st)) ∧
    (∀ (op : DelegatedOp) (st : MFState) (isdir : Str → Bool) (path : Str) (r : Referent),
      find_referent st.entries st.dirs isdir path = some r →
      delegatedCall op st isdir path = (CallOutcome.osCall op r, st)) := by
  constructor
  · intro op st isdir path r h
    unfold structuralCall
    rw [h]
    cases op <;> rfl
  · intro op st isdir path r h
    unfold delegatedCall
    rw [h]
    cases op <;> rfl

/-- Witness for the amended C10: on the leaf path `/m/a` of an
identity-mapped index, `mkdir` fails with EACCES leaving the state
unchanged, while `chown` is delegated to the OS with the resolved real
path. -/
theorem structural_noaccess_others_delegated_witness :
    structuralCall StructOp.mkdir exSt (fun _ => false) ("/m/a".data) =
      (Except.error EACCES, exSt) ∧
    delegatedCall DelegatedOp.chown exSt (fun _ => false) ("/m/a".data) =
      (CallOutcome.osCall DelegatedOp.chown (Referent.leaf ("/m/a".data)), exSt) :=
  ⟨structural_noaccess_others_delegated.1 StructOp.mkdir exSt (fun _ => false)
      ("/m/a".data) (Referent.leaf ("/m/a".data)) (by decide),
    structural_noaccess_others_delegated.2 DelegatedOp.chown exSt (fun _ => false)
      ("/m/a".data) (Referent.leaf ("/m/a".data)) (by decide)⟩

end MFS
